import Mathlib

/-!
# Verification of the N-Queens CSP engine

Shallow embedding of the CSP model and backtracking solver from the
AIND-Constraint_Satisfaction notebook.

* Variables are the column symbols A0 .. A(N-1), modelled as natural-number
  indices; the notebook's tuple of symbols becomes the ordered list
  (List.range N).
* An assignment is the Python dict mapping symbols to integers, modelled as
  an insertion-ordered association list (Python dicts preserve insertion
  order; deletion keeps the order of the remaining keys).
* A constraint is one of the two symbolic templates of the notebook,
  diffRow = Ne(xi, xj) and
  diffDiag = And(Ne(xi, xj + d), Ne(xi, xj - d)) with d = j - i,
  instantiated at a pair of variables.  Evaluation after substitution is
  three-valued: the expression becomes False only when both variables are
  bound and jointly violate it; a partially substituted constraint stays a
  symbolic (truthy) object.  This evaluation behaviour lives in the
  repository's util.constraint wrapper, which is not among the provided
  source files; it is modelled from the spec's Constraint contract (a
  partially bound constraint "must evaluate to not false") and pinned by the
  notebook's own asserts (partial assignment is not false).
* The solver `backtrack` mutates the dict in place; here it passes the dict
  explicitly and returns both the Python return value and the final dict
  state, so that the restore-on-failure behaviour is visible.  A fuel
  parameter makes the recursion structural; running out of fuel is an
  explicit outcome, and fuel-monotonicity plus a depth bound recover the
  fuel-free behaviour of the source.
* The crash that the source exhibits when `inference` returns None
  (`inferences.keys()` dereferences None after the guarded block was
  skipped) is modelled as the `attributeError` outcome.
-/

namespace NQ

/-- A variable is the index of the column symbol A_i. -/
abbrev Var := Nat

/-- Python dict mapping symbols to ints: insertion-ordered association list. -/
abbrev Assignment := List (Nat × Int)

/-- Membership test of a key in the dict (the Python test var in assignment). -/
def hasKey (a : Assignment) (k : Nat) : Bool :=
  a.any (fun p => p.1 == k)

/-- Dict lookup: value of key k when bound. -/
def lookupA (a : Assignment) (k : Nat) : Option Int :=
  (a.find? (fun p => p.1 == k)).map Prod.snd

/-- Python dict assignment d[k] = v: overwrite in place when the key exists,
append at the end otherwise. -/
def dinsert (a : Assignment) (k : Nat) (v : Int) : Assignment :=
  if hasKey a k then a.map (fun p => if p.1 == k then (k, v) else p)
  else a ++ [(k, v)]

/-- Python del d[k]: remove the key, keeping the order of the others (the
source only deletes keys that are present). -/
def derase (a : Assignment) (k : Nat) : Assignment :=
  a.filter (fun p => p.1 != k)

/-- Python d.update(e): insert every binding of e in order. -/
def dupdate (a : Assignment) (e : Assignment) : Assignment :=
  e.foldl (fun acc p => dinsert acc p.1 p.2) a

/-- Delete every key of ks in order (the loop over inferences.keys()). -/
def eraseKeys (a : Assignment) (ks : List Nat) : Assignment :=
  ks.foldl derase a

/-- The two constraint templates of the notebook, instantiated at a pair of
variables.  diffDiag carries the column distance d = j - i it was
substituted with. -/
inductive Cons where
  | diffRow (xi xj : Nat)
  | diffDiag (xi xj : Nat) (d : Nat)
deriving DecidableEq, Repr

/-- Whether constraint c references variable v (v is one of its two free
symbols). -/
def Cons.refs : Cons → Nat → Prop
  | .diffRow i j, v => v = i ∨ v = j
  | .diffDiag i j _, v => v = i ∨ v = j

instance (c : Cons) (v : Nat) : Decidable (c.refs v) := by
  cases c <;> simp [Cons.refs] <;> infer_instance

/-- Modelled from the spec: evaluation of a substituted constraint by the
util.constraint wrapper (not under the provided sources).  Per the spec's
Constraint contract and the notebook's asserts, a constraint may only
evaluate to false once both of its variables are bound and jointly violate
it; with any variable unbound it stays a symbolic, truthy object, so the
check `not assignment_constraint` treats it as passing.  Returns true
unless the constraint evaluates to False under the bindings bnd. -/
def consHolds : Cons → (Nat → Option Int) → Bool
  | .diffRow i j, bnd =>
    match bnd i, bnd j with
    | some vi, some vj => vi != vj
    | _, _ => true
  | .diffDiag i j d, bnd =>
    match bnd i, bnd j with
    | some vi, some vj => (vi != vj + (d : Int)) && (vi != vj - (d : Int))
    | _, _ => true

/-- The spec-side meaning of "the constraint evaluates to false": both
variables bound and jointly violating the condition. -/
def Cons.violated : Cons → (Nat → Option Int) → Prop
  | .diffRow i j, bnd =>
    ∃ vi vj, bnd i = some vi ∧ bnd j = some vj ∧ vi = vj
  | .diffDiag i j d, bnd =>
    ∃ vi vj, bnd i = some vi ∧ bnd j = some vj ∧
      (vi = vj + (d : Int) ∨ vi = vj - (d : Int))

/-- The bindings used by is_consistent: constraint.subs(var, value) followed
by .subs(assignment). -/
def subsBnd (var : Nat) (value : Int) (a : Assignment) : Nat → Option Int :=
  fun w => if w = var then some value else lookupA a w

/-- The double loop of NQueensCSP.__init__: for i in range(N), for j in
range(N) with i < j, the pair (i, j). -/
def NQ_pairs (N : Nat) : List (Nat × Nat) :=
  (List.range N).flatMap
    (fun i => ((List.range N).filter (fun j => i < j)).map (fun j => (i, j)))

/-- The constraint index self._constraints built by NQueensCSP.__init__: the
entry of variable v collects, for every pair (i, j) with v among {i, j}, the
diffRow and diffDiag instances of that pair. -/
def NQ_index (N : Nat) (v : Nat) : List Cons :=
  (NQ_pairs N).flatMap
    (fun p =>
      if v = p.1 ∨ v = p.2 then
        [Cons.diffRow p.1 p.2, Cons.diffDiag p.1 p.2 (p.2 - p.1)]
      else [])

/-- The domain mapping self.domains: every variable maps to the shared
domain set(range(N)), whose iteration order is ascending. -/
def NQ_domains (N : Nat) : List (Nat × List Int) :=
  (List.range N).map (fun v => (v, (List.range N).map Int.ofNat))

/-- NQueensCSP.is_consistent: check every constraint in the index entry of
var after substituting value for var and the assignment for the remaining
symbols; fail as soon as one evaluates to False. -/
def NQ_is_consistent (N : Nat) (var : Nat) (value : Int) (a : Assignment) : Bool :=
  (NQ_index N var).all (fun c => consHolds c (subsBnd var value a))

/-- The duck-typed csp interface that backtrack consumes: csp.variables,
csp.domains, csp.is_complete, csp.is_consistent, csp.inference.  domains
returns none on a missing key (Python KeyError). -/
structure CSP where
  vars : List Nat
  domains : Nat → Option (List Int)
  is_complete : Assignment → Bool
  is_consistentF : Nat → Int → Assignment → Bool
  inference : Nat → Int → Option Assignment

/-- NQueensCSP(N) as a CSP instance. -/
def NQueensCSP (N : Nat) : CSP where
  vars := List.range N
  domains := fun v => (((NQ_domains N).find? (fun p => p.1 == v)).map Prod.snd)
  is_complete := fun a => a.length == N
  is_consistentF := NQ_is_consistent N
  inference := fun _ _ => some []

/-- The select helper: first variable in declaration order not yet bound. -/
def select (csp : CSP) (a : Assignment) : Option Nat :=
  csp.vars.find? (fun v => !(hasKey a v))

/-- The outcomes of running the Python code that are not normal returns:
running out of the fuel bound, the AttributeError raised on
inferences.keys() when inference returned None, and a KeyError from a dict
lookup of a missing key (csp.domains[None] when select found no variable). -/
inductive BTErr where
  | outOfFuel
  | attributeError
  | keyError
deriving DecidableEq, Repr

/-- Python truthiness of the result of the recursive call (if result:):
None and the empty dict are falsy. -/
def truthy : Option Assignment → Bool
  | none => false
  | some s => !s.isEmpty

/-- The for-val loop body of backtrack, parameterized by the recursive call
recur (the next-depth backtrack).  Returns the Python return value together
with the final state of the mutated dict.  When inference returns None the
guarded block is skipped, del assignment[var] runs, and then
inferences.keys() raises AttributeError. -/
def tryVals (csp : CSP) (recur : Assignment → Except BTErr (Option Assignment × Assignment))
    (var : Nat) : List Int → Assignment → Except BTErr (Option Assignment × Assignment)
  | [], a => .ok (none, a)
  | val :: rest, a =>
    if csp.is_consistentF var val a then
      let a1 := dinsert a var val
      match csp.inference var val with
      | some infs =>
        let a2 := dupdate a1 infs
        match recur a2 with
        | .error e => .error e
        | .ok (result, a3) =>
          if truthy result then .ok (result, a3)
          else
            let a4 := derase a3 var
            let a5 := eraseKeys a4 (infs.map Prod.fst)
            tryVals csp recur var rest a5
      | none => .error .attributeError
    else tryVals csp recur var rest a

/-- backtrack(assignment, csp) with an explicit fuel bound on the recursion
depth.  Returns (return value, final dict state). -/
def backtrack (csp : CSP) : Nat → Assignment → Except BTErr (Option Assignment × Assignment)
  | 0, _ => .error .outOfFuel
  | fuel + 1, a =>
    if csp.is_complete a then .ok (some a, a)
    else
      match select csp a with
      | none => .error .keyError
      | some var =>
        match csp.domains var with
        | none => .error .keyError
        | some vals => tryVals csp (backtrack csp fuel) var vals a

/-- backtracking_search(csp): backtrack from the empty assignment. -/
def backtracking_search (csp : CSP) (fuel : Nat) : Except BTErr (Option Assignment × Assignment) :=
  backtrack csp fuel []

/-- The keys of the dict, in insertion order. -/
def keysOf (a : Assignment) : List Nat := a.map Prod.fst

/-- The invariant maintained by backtracking search on NQueensCSP N starting
from the empty assignment: the bound variables are the columns 0 .. len-1 in
insertion order, the bound values are rows in [0, N), and no constraint of
the index evaluates to false under the current bindings. -/
def InvA (N : Nat) (a : Assignment) : Prop :=
  keysOf a = List.range a.length ∧ a.length ≤ N ∧
  (∀ p ∈ a, 0 ≤ p.2 ∧ p.2 < (N : Int)) ∧
  (∀ v c, c ∈ NQ_index N v → consHolds c (lookupA a) = true)

/-- A minimal CSP whose inference hook signals failure (returns None) on a
consistent candidate, exercising the inference-failure path of backtrack. -/
def noneInferenceCSP : CSP where
  vars := [0]
  domains := fun _ => some [0]
  is_complete := fun a => a.length == 1
  is_consistentF := fun _ _ _ => true
  inference := fun _ _ => none

/- ### Dictionary lemmas -/

theorem hasKey_iff_mem {a : Assignment} {k : Nat} : hasKey a k = true ↔ k ∈ keysOf a := by
  simp [hasKey, keysOf, List.any_eq_true, List.mem_map, beq_iff_eq]

theorem find?_eq_none_of_not_hasKey {a : Assignment} {k : Nat} (h : hasKey a k = false) :
    a.find? (fun p => p.1 == k) = none := by
  rw [List.find?_eq_none]
  intro p hp hc
  have : hasKey a k = true := by
    simp only [hasKey, List.any_eq_true]
    exact ⟨p, hp, hc⟩
  rw [h] at this
  exact Bool.false_ne_true this

theorem lookupA_append_self {a : Assignment} {k : Nat} {v : Int}
    (h : hasKey a k = false) : lookupA (a ++ [(k, v)]) k = some v := by
  unfold lookupA
  rw [List.find?_append, find?_eq_none_of_not_hasKey h]
  simp

theorem lookupA_append_ne {a : Assignment} {k w : Nat} {v : Int}
    (hw : w ≠ k) : lookupA (a ++ [(k, v)]) w = lookupA a w := by
  unfold lookupA
  rw [List.find?_append]
  have hkw : (k == w) = false := beq_eq_false_iff_ne.mpr (Ne.symm hw)
  have h2 : List.find? (fun p => p.1 == w) [(k, v)] = none := by
    simp [List.find?_cons, hkw]
  rw [h2]
  cases a.find? (fun p => p.1 == w) <;> rfl

theorem dinsert_eq_append {a : Assignment} {k : Nat} {v : Int}
    (h : hasKey a k = false) : dinsert a k v = a ++ [(k, v)] := by
  simp [dinsert, h]

theorem derase_of_not_hasKey {a : Assignment} {k : Nat} (h : hasKey a k = false) :
    derase a k = a := by
  unfold derase
  rw [List.filter_eq_self]
  intro p hp
  simp only [bne_iff_ne, ne_eq]
  intro hc
  have : hasKey a k = true := by
    simp only [hasKey, List.any_eq_true]
    exact ⟨p, hp, by simp [hc]⟩
  rw [h] at this
  exact Bool.false_ne_true this

theorem derase_append {a : Assignment} {k : Nat} {v : Int} :
    derase (a ++ [(k, v)]) k = derase a k := by
  simp [derase, List.filter_append]

theorem keysOf_append {a : Assignment} {k : Nat} {v : Int} :
    keysOf (a ++ [(k, v)]) = keysOf a ++ [k] := by
  simp [keysOf]

theorem mem_keysOf_of_lookupA {a : Assignment} {k : Nat} {v : Int}
    (h : lookupA a k = some v) : k ∈ keysOf a := by
  unfold lookupA at h
  cases hf : a.find? (fun p => p.1 == k) with
  | none => rw [hf] at h; exact absurd h (by simp)
  | some p =>
    have hp := List.mem_of_find?_eq_some hf
    have hk := List.find?_some hf
    have hpk : p.1 = k := by simpa using hk
    have hmem : p.1 ∈ keysOf a := List.mem_map_of_mem Prod.fst hp
    exact hpk ▸ hmem

theorem exists_lookupA_of_mem_keysOf {a : Assignment} {k : Nat}
    (h : k ∈ keysOf a) : ∃ v, lookupA a k = some v := by
  have hk : hasKey a k = true := hasKey_iff_mem.mpr h
  simp only [hasKey, List.any_eq_true] at hk
  obtain ⟨p, hp, hpk⟩ := hk
  have : (a.find? (fun p => p.1 == k)).isSome := by
    rw [List.find?_isSome]
    exact ⟨p, hp, hpk⟩
  cases hf : a.find? (fun p => p.1 == k) with
  | none => rw [hf] at this; exact absurd this (by simp)
  | some q => exact ⟨q.2, by simp [lookupA, hf]⟩

/- ### select and domains on NQueensCSP -/

theorem select_nq (N : Nat) {a : Assignment} (hk : keysOf a = List.range a.length)
    (hlt : a.length < N) : select (NQueensCSP N) a = some a.length := by
  unfold select NQueensCSP
  simp only
  have hsplit : List.range N =
      List.range a.length ++ (List.range (N - a.length)).map (a.length + ·) := by
    rw [← List.range_add]
    congr 1
    omega
  rw [hsplit, List.find?_append]
  have h1 : (List.range a.length).find? (fun v => !(hasKey a v)) = none := by
    rw [List.find?_eq_none]
    intro v hv
    have : hasKey a v = true := by
      rw [hasKey_iff_mem, hk]
      exact hv
    simp [this]
  rw [h1]
  have hm : N - a.length = (N - a.length - 1) + 1 := by omega
  rw [hm, List.range_succ_eq_map]
  have hnk : hasKey a a.length = false := by
    rw [← Bool.not_eq_true, hasKey_iff_mem, hk]
    simp
  simp [List.find?, hnk]

theorem find?_beq_range {N v : Nat} (hv : v < N) :
    (List.range N).find? (fun u => u == v) = some v := by
  have hsplit : List.range N = List.range v ++ (List.range (N - v)).map (v + ·) := by
    rw [← List.range_add]
    congr 1
    omega
  rw [hsplit, List.find?_append]
  have h1 : (List.range v).find? (fun u => u == v) = none := by
    rw [List.find?_eq_none]
    intro u hu
    rw [List.mem_range] at hu
    simp
    omega
  rw [h1]
  have hm : N - v = (N - v - 1) + 1 := by omega
  rw [hm, List.range_succ_eq_map]
  simp [List.find?]

theorem domains_nq (N : Nat) {v : Nat} (hv : v < N) :
    (NQueensCSP N).domains v = some ((List.range N).map Int.ofNat) := by
  show (((NQ_domains N).find? (fun p => p.1 == v)).map Prod.snd) = _
  unfold NQ_domains
  rw [List.find?_map]
  have : (List.range N).find?
      ((fun p => p.1 == v) ∘ (fun u => (u, (List.range N).map Int.ofNat))) =
      (List.range N).find? (fun u => u == v) := rfl
  rw [this, find?_beq_range hv]
  rfl

/- ### Constraint index lemmas -/

theorem mem_NQ_pairs {N : Nat} {p : Nat × Nat} :
    p ∈ NQ_pairs N ↔ p.1 < p.2 ∧ p.2 < N := by
  cases p with
  | mk i j =>
    simp only [NQ_pairs, List.mem_flatMap, List.mem_map, List.mem_filter, List.mem_range,
      decide_eq_true_eq]
    constructor
    · rintro ⟨i', hi', j', ⟨hj', hlt⟩, he⟩
      obtain ⟨rfl, rfl⟩ := Prod.mk.injEq i' j' i j ▸ he
      exact ⟨hlt, hj'⟩
    · rintro ⟨hij, hjN⟩
      exact ⟨i, by omega, j, ⟨hjN, hij⟩, rfl⟩

theorem mem_NQ_index {N v : Nat} {c : Cons} :
    c ∈ NQ_index N v ↔ ∃ i j, i < j ∧ j < N ∧ (v = i ∨ v = j) ∧
      (c = Cons.diffRow i j ∨ c = Cons.diffDiag i j (j - i)) := by
  simp only [NQ_index, List.mem_flatMap]
  constructor
  · rintro ⟨p, hp, hc⟩
    rw [mem_NQ_pairs] at hp
    by_cases hv : v = p.1 ∨ v = p.2
    · rw [if_pos hv] at hc
      simp only [List.mem_cons, List.not_mem_nil, or_false] at hc
      exact ⟨p.1, p.2, hp.1, hp.2, hv, hc⟩
    · rw [if_neg hv] at hc
      exact absurd hc (List.not_mem_nil c)
  · rintro ⟨i, j, hij, hjN, hv, hc⟩
    refine ⟨(i, j), mem_NQ_pairs.mpr ⟨hij, hjN⟩, ?_⟩
    rw [if_pos hv]
    rcases hc with rfl | rfl <;> simp

/- ### Constraint evaluation lemmas -/

theorem consHolds_congr {c : Cons} {b1 b2 : Nat → Option Int}
    (h : ∀ w, c.refs w → b1 w = b2 w) : consHolds c b1 = consHolds c b2 := by
  cases c with
  | diffRow i j =>
    have h1 := h i (Or.inl rfl)
    have h2 := h j (Or.inr rfl)
    simp only [consHolds, h1, h2]
  | diffDiag i j d =>
    have h1 := h i (Or.inl rfl)
    have h2 := h j (Or.inr rfl)
    simp only [consHolds, h1, h2]

theorem consHolds_eq_true_iff {c : Cons} {bnd : Nat → Option Int} :
    consHolds c bnd = true ↔ ¬ c.violated bnd := by
  cases c with
  | diffRow i j =>
    cases hbi : bnd i <;> cases hbj : bnd j <;>
      simp [consHolds, Cons.violated, hbi, hbj]
  | diffDiag i j d =>
    cases hbi : bnd i <;> cases hbj : bnd j <;>
      simp [consHolds, Cons.violated, hbi, hbj, not_or]

/- ### Invariant lemmas -/

theorem subsBnd_eq_lookupA_append (val : Int) {a : Assignment}
    (h : hasKey a a.length = false) :
    ∀ w, lookupA (a ++ [(a.length, val)]) w = subsBnd a.length val a w := by
  intro w
  by_cases hw : w = a.length
  · subst hw
    rw [lookupA_append_self h]
    simp [subsBnd]
  · rw [lookupA_append_ne hw]
    simp [subsBnd, hw]

theorem not_hasKey_length {a : Assignment}
    (hk : keysOf a = List.range a.length) : hasKey a a.length = false := by
  rw [← Bool.not_eq_true, hasKey_iff_mem, hk]
  simp

theorem InvA_nil (N : Nat) : InvA N [] := by
  refine ⟨rfl, Nat.zero_le N, by simp, ?_⟩
  intro v c _
  cases c <;> simp [consHolds, lookupA, List.find?]

theorem InvA_insert {N : Nat} {a : Assignment} {val : Int}
    (h : InvA N a) (hlen : a.length < N) (hv0 : 0 ≤ val) (hvN : val < (N : Int))
    (hcons : NQ_is_consistent N a.length val a = true) :
    InvA N (a ++ [(a.length, val)]) := by
  obtain ⟨hk, _, hvals, hcs⟩ := h
  have hnk : hasKey a a.length = false := not_hasKey_length hk
  have hbnd := subsBnd_eq_lookupA_append val hnk
  refine ⟨?_, ?_, ?_, ?_⟩
  · rw [keysOf_append, hk, List.length_append]
    simp [List.range_succ]
  · rw [List.length_append]
    simp only [List.length_singleton]
    omega
  · intro p hp
    rcases List.mem_append.mp hp with hpa | hpx
    · exact hvals p hpa
    · simp only [List.mem_singleton] at hpx
      subst hpx
      exact ⟨hv0, hvN⟩
  · intro v c hc
    obtain ⟨i, j, hij, hjN, _, hce⟩ := mem_NQ_index.mp hc
    by_cases hvar : a.length = i ∨ a.length = j
    · have hcidx : c ∈ NQ_index N a.length :=
        mem_NQ_index.mpr ⟨i, j, hij, hjN, hvar, hce⟩
      unfold NQ_is_consistent at hcons
      have hok := (List.all_eq_true.mp hcons) c hcidx
      have hcg : consHolds c (lookupA (a ++ [(a.length, val)])) =
          consHolds c (subsBnd a.length val a) :=
        consHolds_congr (fun w _ => hbnd w)
      rw [hcg]
      exact hok
    · push_neg at hvar
      have hcg : consHolds c (lookupA (a ++ [(a.length, val)])) =
          consHolds c (lookupA a) := by
        apply consHolds_congr
        intro w hw
        have hwij : w = i ∨ w = j := by
          rcases hce with rfl | rfl <;> exact hw
        have hwne : w ≠ a.length := by
          rcases hwij with rfl | rfl
          · exact fun hh => hvar.1 hh.symm
          · exact fun hh => hvar.2 hh.symm
        exact lookupA_append_ne hwne
      rw [hcg]
      exact hcs v c hc

theorem InvA_complete {N : Nat} {a : Assignment} (h : InvA N a) (hlen : a.length = N) :
    keysOf a = List.range N ∧ (∀ p ∈ a, 0 ≤ p.2 ∧ p.2 < (N : Int)) ∧
    ∀ i j vi vj, i ≠ j → lookupA a i = some vi → lookupA a j = some vj →
      vi ≠ vj ∧ (vi - vj).natAbs ≠ ((i : Int) - (j : Int)).natAbs := by
  obtain ⟨hk, _, hvals, hcs⟩ := h
  rw [hlen] at hk
  refine ⟨hk, hvals, ?_⟩
  have main : ∀ i j vi vj, i < j → lookupA a i = some vi → lookupA a j = some vj →
      vi ≠ vj ∧ vi ≠ vj + ((j - i : Nat) : Int) ∧ vi ≠ vj - ((j - i : Nat) : Int) := by
    intro i j vi vj hij hli hlj
    have hjN : j < N := by
      have hm := mem_keysOf_of_lookupA hlj
      rw [hk, List.mem_range] at hm
      exact hm
    have hrow := hcs i (Cons.diffRow i j)
      (mem_NQ_index.mpr ⟨i, j, hij, hjN, Or.inl rfl, Or.inl rfl⟩)
    have hdiag := hcs i (Cons.diffDiag i j (j - i))
      (mem_NQ_index.mpr ⟨i, j, hij, hjN, Or.inl rfl, Or.inr rfl⟩)
    simp only [consHolds, hli, hlj, Bool.and_eq_true, bne_iff_ne, ne_eq] at hrow hdiag
    exact ⟨hrow, hdiag.1, hdiag.2⟩
  intro i j vi vj hne hli hlj
  rcases Nat.lt_or_ge i j with hij | hge
  · obtain ⟨h1, h2, h3⟩ := main i j vi vj hij hli hlj
    refine ⟨h1, ?_⟩
    omega
  · have hij : j < i := by omega
    obtain ⟨h1, h2, h3⟩ := main j i vj vi hij hlj hli
    refine ⟨fun hh => h1 hh.symm, ?_⟩
    omega

/- ### Unfolding equations for the search functions -/

theorem tryVals_nil (csp : CSP) (recur : Assignment → Except BTErr (Option Assignment × Assignment))
    (var : Nat) (a : Assignment) : tryVals csp recur var [] a = .ok (none, a) := rfl

theorem tryVals_cons (csp : CSP) (recur : Assignment → Except BTErr (Option Assignment × Assignment))
    (var : Nat) (val : Int) (rest : List Int) (a : Assignment) :
    tryVals csp recur var (val :: rest) a =
      if csp.is_consistentF var val a then
        match csp.inference var val with
        | some infs =>
          match recur (dupdate (dinsert a var val) infs) with
          | .error e => .error e
          | .ok (result, a3) =>
            if truthy result then .ok (result, a3)
            else tryVals csp recur var rest (eraseKeys (derase a3 var) (infs.map Prod.fst))
        | none => .error .attributeError
      else tryVals csp recur var rest a := rfl

theorem tryVals_cons_nq (N : Nat)
    (recur : Assignment → Except BTErr (Option Assignment × Assignment))
    (var : Nat) (val : Int) (rest : List Int) (a : Assignment) :
    tryVals (NQueensCSP N) recur var (val :: rest) a =
      if NQ_is_consistent N var val a then
        match recur (dinsert a var val) with
        | .error e => .error e
        | .ok (result, a3) =>
          if truthy result then .ok (result, a3)
          else tryVals (NQueensCSP N) recur var rest (derase a3 var)
      else tryVals (NQueensCSP N) recur var rest a := rfl

theorem backtrack_zero (csp : CSP) (a : Assignment) :
    backtrack csp 0 a = .error .outOfFuel := rfl

theorem backtrack_succ (csp : CSP) (fuel : Nat) (a : Assignment) :
    backtrack csp (fuel + 1) a =
      if csp.is_complete a then .ok (some a, a)
      else
        match select csp a with
        | none => .error .keyError
        | some var =>
          match csp.domains var with
          | none => .error .keyError
          | some vals => tryVals csp (backtrack csp fuel) var vals a := rfl

/- ### Conditional step lemmas (one reduction step under known tests) -/

theorem tryVals_skip {csp : CSP}
    {recur : Assignment → Except BTErr (Option Assignment × Assignment)}
    {var : Nat} {val : Int} {rest : List Int} {a : Assignment}
    (hc : ¬ csp.is_consistentF var val a = true) :
    tryVals csp recur var (val :: rest) a = tryVals csp recur var rest a := by
  rw [tryVals_cons, if_neg hc]

theorem tryVals_inf_none {csp : CSP}
    {recur : Assignment → Except BTErr (Option Assignment × Assignment)}
    {var : Nat} {val : Int} {rest : List Int} {a : Assignment}
    (hc : csp.is_consistentF var val a = true)
    (hinf : csp.inference var val = none) :
    tryVals csp recur var (val :: rest) a = .error .attributeError := by
  rw [tryVals_cons, if_pos hc]
  simp only [hinf]

theorem tryVals_step_err {csp : CSP}
    {recur : Assignment → Except BTErr (Option Assignment × Assignment)}
    {var : Nat} {val : Int} {rest : List Int} {a : Assignment}
    {infs : Assignment} {e : BTErr}
    (hc : csp.is_consistentF var val a = true)
    (hinf : csp.inference var val = some infs)
    (hr : recur (dupdate (dinsert a var val) infs) = .error e) :
    tryVals csp recur var (val :: rest) a = .error e := by
  rw [tryVals_cons, if_pos hc]
  simp only [hinf, hr]

theorem tryVals_step_ok {csp : CSP}
    {recur : Assignment → Except BTErr (Option Assignment × Assignment)}
    {var : Nat} {val : Int} {rest : List Int} {a : Assignment}
    {infs : Assignment} {result : Option Assignment} {a3 : Assignment}
    (hc : csp.is_consistentF var val a = true)
    (hinf : csp.inference var val = some infs)
    (hr : recur (dupdate (dinsert a var val) infs) = .ok (result, a3)) :
    tryVals csp recur var (val :: rest) a =
      if truthy result then .ok (result, a3)
      else tryVals csp recur var rest (eraseKeys (derase a3 var) (infs.map Prod.fst)) := by
  rw [tryVals_cons, if_pos hc]
  simp only [hinf, hr]

theorem tryVals_nq_skip {N : Nat}
    {recur : Assignment → Except BTErr (Option Assignment × Assignment)}
    {var : Nat} {val : Int} {rest : List Int} {a : Assignment}
    (hc : ¬ NQ_is_consistent N var val a = true) :
    tryVals (NQueensCSP N) recur var (val :: rest) a =
      tryVals (NQueensCSP N) recur var rest a :=
  tryVals_skip hc

theorem tryVals_nq_step_err {N : Nat}
    {recur : Assignment → Except BTErr (Option Assignment × Assignment)}
    {var : Nat} {val : Int} {rest : List Int} {a : Assignment} {e : BTErr}
    (hc : NQ_is_consistent N var val a = true)
    (hr : recur (dinsert a var val) = .error e) :
    tryVals (NQueensCSP N) recur var (val :: rest) a = .error e :=
  tryVals_step_err hc rfl hr

theorem tryVals_nq_step_ok {N : Nat}
    {recur : Assignment → Except BTErr (Option Assignment × Assignment)}
    {var : Nat} {val : Int} {rest : List Int} {a : Assignment}
    {result : Option Assignment} {a3 : Assignment}
    (hc : NQ_is_consistent N var val a = true)
    (hr : recur (dinsert a var val) = .ok (result, a3)) :
    tryVals (NQueensCSP N) recur var (val :: rest) a =
      if truthy result then .ok (result, a3)
      else tryVals (NQueensCSP N) recur var rest (derase a3 var) :=
  tryVals_step_ok hc rfl hr

theorem backtrack_complete {csp : CSP} {fuel : Nat} {a : Assignment}
    (hcomp : csp.is_complete a = true) :
    backtrack csp (fuel + 1) a = .ok (some a, a) := by
  rw [backtrack_succ, if_pos hcomp]

theorem backtrack_sel_none {csp : CSP} {fuel : Nat} {a : Assignment}
    (hcomp : ¬ csp.is_complete a = true) (hsel : select csp a = none) :
    backtrack csp (fuel + 1) a = .error .keyError := by
  rw [backtrack_succ, if_neg hcomp]
  simp only [hsel]

theorem backtrack_dom_none {csp : CSP} {fuel : Nat} {a : Assignment} {var : Nat}
    (hcomp : ¬ csp.is_complete a = true) (hsel : select csp a = some var)
    (hdom : csp.domains var = none) :
    backtrack csp (fuel + 1) a = .error .keyError := by
  rw [backtrack_succ, if_neg hcomp]
  simp only [hsel, hdom]

theorem backtrack_step {csp : CSP} {fuel : Nat} {a : Assignment} {var : Nat}
    {vals : List Int}
    (hcomp : ¬ csp.is_complete a = true) (hsel : select csp a = some var)
    (hdom : csp.domains var = some vals) :
    backtrack csp (fuel + 1) a = tryVals csp (backtrack csp fuel) var vals a := by
  rw [backtrack_succ, if_neg hcomp]
  simp only [hsel, hdom]

/- ### Restoration: a failed call leaves the dict as it found it -/

theorem tryVals_restore {N : Nat}
    {recur : Assignment → Except BTErr (Option Assignment × Assignment)}
    (hrec : ∀ b res fin, recur b = .ok (res, fin) →
      (res = none → fin = b) ∧ ∀ s, res = some s → fin = s ∧ (s ≠ [] ∨ s = b))
    {var : Nat} :
    ∀ (vals : List Int) (a : Assignment), hasKey a var = false →
      ∀ res fin, tryVals (NQueensCSP N) recur var vals a = .ok (res, fin) →
      (res = none → fin = a) ∧ ∀ s, res = some s → fin = s ∧ s ≠ [] := by
  intro vals
  induction vals with
  | nil =>
    intro a _ res fin h
    rw [tryVals_nil] at h
    simp only [Except.ok.injEq, Prod.mk.injEq] at h
    obtain ⟨h1, h2⟩ := h
    subst h2
    exact ⟨fun _ => rfl, fun s hs => absurd (h1 ▸ hs) (by simp)⟩
  | cons val rest ih =>
    intro a ha res fin h
    by_cases hc : NQ_is_consistent N var val a
    · cases hr : recur (dinsert a var val) with
      | error e =>
        rw [tryVals_nq_step_err hc hr] at h
        exact absurd h (by simp)
      | ok pr =>
        obtain ⟨result, a3⟩ := pr
        rw [tryVals_nq_step_ok hc hr] at h
        rw [dinsert_eq_append ha] at hr
        have hfacts := hrec _ _ _ hr
        by_cases ht : truthy result
        · rw [if_pos ht] at h
          simp only [Except.ok.injEq, Prod.mk.injEq] at h
          obtain ⟨h1, h2⟩ := h
          subst h1
          subst h2
          cases result with
          | none => simp [truthy] at ht
          | some s =>
            refine ⟨by simp, fun s' hs' => ?_⟩
            obtain rfl : s = s' := by simpa using hs'
            have hsa := hfacts.2 s rfl
            refine ⟨hsa.1, ?_⟩
            rcases hsa.2 with hne | heq
            · exact hne
            · rw [heq]
              simp
        · rw [if_neg ht] at h
          cases result with
          | some s =>
            have hse : s = [] := by
              simpa [truthy, List.isEmpty_iff] using ht
            rcases (hfacts.2 s rfl).2 with hne | heq
            · exact absurd hse hne
            · rw [heq] at hse
              exact absurd hse (by simp)
          | none =>
            have ha3 : a3 = a ++ [(var, val)] := hfacts.1 rfl
            rw [ha3, derase_append, derase_of_not_hasKey ha] at h
            exact ih a ha res fin h
    · rw [tryVals_nq_skip hc] at h
      exact ih a ha res fin h

theorem backtrack_restore (N : Nat) :
    ∀ (fuel : Nat) (a : Assignment) (res : Option Assignment) (fin : Assignment),
      backtrack (NQueensCSP N) fuel a = .ok (res, fin) →
      (res = none → fin = a) ∧ ∀ s, res = some s → fin = s ∧ (s ≠ [] ∨ s = a) := by
  intro fuel
  induction fuel with
  | zero =>
    intro a res fin h
    rw [backtrack_zero] at h
    exact absurd h (by simp)
  | succ fuel ih =>
    intro a res fin h
    by_cases hcomp : (NQueensCSP N).is_complete a
    · rw [backtrack_complete hcomp] at h
      simp only [Except.ok.injEq, Prod.mk.injEq] at h
      obtain ⟨h1, h2⟩ := h
      subst h2
      refine ⟨fun _ => rfl, fun s hs => ?_⟩
      obtain rfl : a = s := by
        rw [← h1] at hs
        simpa using hs
      exact ⟨rfl, Or.inr rfl⟩
    · cases hsel : select (NQueensCSP N) a with
      | none =>
        rw [backtrack_sel_none hcomp hsel] at h
        exact absurd h (by simp)
      | some var =>
        cases hdom : (NQueensCSP N).domains var with
        | none =>
          rw [backtrack_dom_none hcomp hsel hdom] at h
          exact absurd h (by simp)
        | some vals =>
          rw [backtrack_step hcomp hsel hdom] at h
          have hvk : hasKey a var = false := by
            have := List.find?_some hsel
            simpa using this
          have hres := tryVals_restore (fun b r' f' hb => ih b r' f' hb) vals a hvk res fin h
          exact ⟨hres.1, fun s hs => ⟨(hres.2 s hs).1, Or.inl (hres.2 s hs).2⟩⟩

/- ### Fuel monotonicity: a normal return is stable under more fuel -/

theorem tryVals_mono {csp : CSP}
    {recur recur' : Assignment → Except BTErr (Option Assignment × Assignment)}
    (h : ∀ b x, recur b = .ok x → recur' b = .ok x) :
    ∀ (vals : List Int) (var : Nat) (a : Assignment) (x : Option Assignment × Assignment),
      tryVals csp recur var vals a = .ok x → tryVals csp recur' var vals a = .ok x := by
  intro vals
  induction vals with
  | nil => intro var a x hx; exact hx
  | cons val rest ih =>
    intro var a x hx
    by_cases hc : csp.is_consistentF var val a
    · cases hinf : csp.inference var val with
      | none =>
        rw [tryVals_inf_none hc hinf] at hx
        exact absurd hx (by simp)
      | some infs =>
        cases hr : recur (dupdate (dinsert a var val) infs) with
        | error e =>
          rw [tryVals_step_err hc hinf hr] at hx
          exact absurd hx (by simp)
        | ok pr =>
          obtain ⟨result, a3⟩ := pr
          rw [tryVals_step_ok hc hinf hr] at hx
          rw [tryVals_step_ok hc hinf (h _ _ hr)]
          by_cases ht : truthy result
          · rw [if_pos ht] at hx ⊢
            exact hx
          · rw [if_neg ht] at hx ⊢
            exact ih _ _ _ hx
    · rw [tryVals_skip hc] at hx
      rw [tryVals_skip hc]
      exact ih _ _ _ hx

theorem backtrack_mono {csp : CSP} :
    ∀ (fuel fuel' : Nat), fuel ≤ fuel' →
      ∀ (a : Assignment) (x : Option Assignment × Assignment),
        backtrack csp fuel a = .ok x → backtrack csp fuel' a = .ok x := by
  intro fuel
  induction fuel with
  | zero =>
    intro fuel' _ a x h
    rw [backtrack_zero] at h
    exact absurd h (by simp)
  | succ fuel ih =>
    intro fuel' hle a x h
    obtain ⟨fuel'', rfl⟩ : ∃ k, fuel' = k + 1 := ⟨fuel' - 1, by omega⟩
    by_cases hcomp : csp.is_complete a
    · rw [backtrack_complete hcomp] at h
      rw [backtrack_complete hcomp]
      exact h
    · cases hsel : select csp a with
      | none =>
        rw [backtrack_sel_none hcomp hsel] at h
        exact absurd h (by simp)
      | some var =>
        cases hdom : csp.domains var with
        | none =>
          rw [backtrack_dom_none hcomp hsel hdom] at h
          exact absurd h (by simp)
        | some vals =>
          rw [backtrack_step hcomp hsel hdom] at h
          rw [backtrack_step hcomp hsel hdom]
          exact tryVals_mono (fun b x' hb => ih fuel'' (by omega) b x' hb) vals var a x h

/- ### Progress: enough fuel gives a normal return on NQueensCSP -/

theorem tryVals_progress {N fuel : Nat}
    (IH : ∀ b : Assignment, keysOf b = List.range b.length → b.length ≤ N →
      N - b.length < fuel → ∃ x, backtrack (NQueensCSP N) fuel b = .ok x) :
    ∀ (vals : List Int) (a : Assignment), keysOf a = List.range a.length →
      a.length < N → N - (a.length + 1) < fuel →
      ∃ x, tryVals (NQueensCSP N) (backtrack (NQueensCSP N) fuel) a.length vals a = .ok x := by
  intro vals
  induction vals with
  | nil => intro a _ _ _; exact ⟨(none, a), rfl⟩
  | cons val rest ih =>
    intro a hk hlen hfuel
    by_cases hc : NQ_is_consistent N a.length val a
    · have ha : hasKey a a.length = false := not_hasKey_length hk
      have hk2 : keysOf (a ++ [(a.length, val)]) = List.range (a ++ [(a.length, val)]).length := by
        rw [keysOf_append, hk, List.length_append]
        simp [List.range_succ]
      have hlen2 : (a ++ [(a.length, val)]).length = a.length + 1 := by simp
      obtain ⟨⟨result, a3⟩, hbt⟩ :=
        IH (a ++ [(a.length, val)]) hk2 (by rw [hlen2]; omega) (by rw [hlen2]; exact hfuel)
      have hbt' : backtrack (NQueensCSP N) fuel (dinsert a a.length val) = .ok (result, a3) := by
        rw [dinsert_eq_append ha]
        exact hbt
      rw [tryVals_nq_step_ok hc hbt']
      by_cases ht : truthy result
      · rw [if_pos ht]
        exact ⟨(result, a3), rfl⟩
      · rw [if_neg ht]
        have hfacts := backtrack_restore N fuel _ _ _ hbt
        cases result with
        | some s =>
          have hse : s = [] := by
            simpa [truthy, List.isEmpty_iff] using ht
          rcases (hfacts.2 s rfl).2 with hne | heq
          · exact absurd hse hne
          · rw [heq] at hse
            exact absurd hse (by simp)
        | none =>
          have ha3 : a3 = a ++ [(a.length, val)] := hfacts.1 rfl
          rw [ha3, derase_append, derase_of_not_hasKey ha]
          exact ih a hk hlen hfuel
    · rw [tryVals_nq_skip hc]
      exact ih a hk hlen hfuel

theorem backtrack_progress (N : Nat) :
    ∀ (fuel : Nat) (a : Assignment), keysOf a = List.range a.length →
      a.length ≤ N → N - a.length < fuel →
      ∃ x, backtrack (NQueensCSP N) fuel a = .ok x := by
  intro fuel
  induction fuel with
  | zero => intro a _ _ hf; omega
  | succ fuel ih =>
    intro a hk hle hf
    by_cases hcomp : (NQueensCSP N).is_complete a
    · rw [backtrack_complete hcomp]
      exact ⟨(some a, a), rfl⟩
    · have hne : a.length ≠ N := by simpa [NQueensCSP] using hcomp
      have hlen : a.length < N := by omega
      rw [backtrack_step hcomp (select_nq N hk hlen) (domains_nq N hlen)]
      exact tryVals_progress (fun b h1 h2 h3 => ih b h1 h2 h3) _ a hk hlen (by omega)

/- ### Soundness: a returned assignment satisfies the invariant completely -/

theorem tryVals_sound {N fuel : Nat}
    (IH : ∀ (b r fin : Assignment), InvA N b →
      backtrack (NQueensCSP N) fuel b = .ok (some r, fin) → InvA N r ∧ r.length = N) :
    ∀ (vals : List Int) (a : Assignment), InvA N a → a.length < N →
      (∀ x ∈ vals, 0 ≤ x ∧ x < (N : Int)) →
      ∀ r fin,
        tryVals (NQueensCSP N) (backtrack (NQueensCSP N) fuel) a.length vals a = .ok (some r, fin) →
        InvA N r ∧ r.length = N := by
  intro vals
  induction vals with
  | nil =>
    intro a _ _ _ r fin h
    rw [tryVals_nil] at h
    simp at h
  | cons val rest ih =>
    intro a hInv hlen hvals r fin h
    by_cases hc : NQ_is_consistent N a.length val a
    · have ha : hasKey a a.length = false := not_hasKey_length hInv.1
      have hInv2 : InvA N (a ++ [(a.length, val)]) :=
        InvA_insert hInv hlen (hvals val (by simp)).1 (hvals val (by simp)).2 hc
      cases hbt : backtrack (NQueensCSP N) fuel (dinsert a a.length val) with
      | error e =>
        rw [tryVals_nq_step_err hc hbt] at h
        exact absurd h (by simp)
      | ok pr =>
        obtain ⟨result, a3⟩ := pr
        rw [tryVals_nq_step_ok hc hbt] at h
        rw [dinsert_eq_append ha] at hbt
        by_cases ht : truthy result
        · rw [if_pos ht] at h
          simp only [Except.ok.injEq, Prod.mk.injEq] at h
          obtain ⟨h1, _⟩ := h
          cases result with
          | none => simp [truthy] at ht
          | some s =>
            obtain rfl : s = r := by simpa using h1
            exact IH _ _ _ hInv2 hbt
        · rw [if_neg ht] at h
          have hfacts := backtrack_restore N fuel _ _ _ hbt
          cases result with
          | some s =>
            have hse : s = [] := by
              simpa [truthy, List.isEmpty_iff] using ht
            rcases (hfacts.2 s rfl).2 with hne | heq
            · exact absurd hse hne
            · rw [heq] at hse
              exact absurd hse (by simp)
          | none =>
            have ha3 : a3 = a ++ [(a.length, val)] := hfacts.1 rfl
            rw [ha3, derase_append, derase_of_not_hasKey ha] at h
            exact ih a hInv hlen (fun x hx => hvals x (by simp [hx])) r fin h
    · rw [tryVals_nq_skip hc] at h
      exact ih a hInv hlen (fun x hx => hvals x (by simp [hx])) r fin h

theorem backtrack_sound (N : Nat) :
    ∀ (fuel : Nat) (a r fin : Assignment), InvA N a →
      backtrack (NQueensCSP N) fuel a = .ok (some r, fin) →
      InvA N r ∧ r.length = N := by
  intro fuel
  induction fuel with
  | zero =>
    intro a r fin _ h
    rw [backtrack_zero] at h
    exact absurd h (by simp)
  | succ fuel ih =>
    intro a r fin hInv h
    by_cases hcomp : (NQueensCSP N).is_complete a
    · rw [backtrack_complete hcomp] at h
      simp only [Except.ok.injEq, Prod.mk.injEq] at h
      have hlen : a.length = N := by simpa [NQueensCSP] using hcomp
      obtain ⟨h1, _⟩ := h
      obtain rfl : a = r := by simpa using h1
      exact ⟨hInv, hlen⟩
    · have hne : a.length ≠ N := by simpa [NQueensCSP] using hcomp
      have hlen : a.length < N := by
        have := hInv.2.1
        omega
      rw [backtrack_step hcomp (select_nq N hInv.1 hlen) (domains_nq N hlen)] at h
      refine tryVals_sound (fun b r' fin' h1 h2 => ih b r' fin' h1 h2) _ a hInv hlen ?_ r fin h
      intro x hx
      rw [List.mem_map] at hx
      obtain ⟨m, hm, rfl⟩ := hx
      rw [List.mem_range] at hm
      constructor
      · exact Int.ofNat_nonneg m
      · rw [Int.ofNat_eq_natCast]
        exact_mod_cast hm

/- ### Nodup and count facts about the constraint index -/

theorem NQ_pairs_nodup (N : Nat) : (NQ_pairs N).Nodup := by
  unfold NQ_pairs
  rw [List.nodup_flatMap]
  constructor
  · intro i _
    have hinj : Function.Injective (fun j => ((i, j) : Nat × Nat)) := by
      intro a b hab
      simpa using hab
    exact List.Nodup.map hinj (List.Nodup.filter _ (List.nodup_range N))
  · refine (List.nodup_range N).imp ?_
    intro a b hab x hxa hxb
    simp only [List.mem_map, List.mem_filter] at hxa hxb
    obtain ⟨j1, _, rfl⟩ := hxa
    obtain ⟨j2, _, hx2⟩ := hxb
    exact hab (by simpa using congrArg Prod.fst hx2.symm)

theorem NQ_index_nodup (N v : Nat) : (NQ_index N v).Nodup := by
  unfold NQ_index
  rw [List.nodup_flatMap]
  constructor
  · intro p _
    by_cases hv : v = p.1 ∨ v = p.2
    · rw [if_pos hv]
      simp
    · rw [if_neg hv]
      simp
  · refine (NQ_pairs_nodup N).imp ?_
    intro p q hpq x hxp hxq
    have hxp' : x ∈ (if v = p.1 ∨ v = p.2 then
        [Cons.diffRow p.1 p.2, Cons.diffDiag p.1 p.2 (p.2 - p.1)] else []) := hxp
    have hxq' : x ∈ (if v = q.1 ∨ v = q.2 then
        [Cons.diffRow q.1 q.2, Cons.diffDiag q.1 q.2 (q.2 - q.1)] else []) := hxq
    have hp : x = Cons.diffRow p.1 p.2 ∨ x = Cons.diffDiag p.1 p.2 (p.2 - p.1) := by
      by_cases hv : v = p.1 ∨ v = p.2
      · rw [if_pos hv] at hxp'
        simpa using hxp'
      · rw [if_neg hv] at hxp'
        simp at hxp'
    have hq : x = Cons.diffRow q.1 q.2 ∨ x = Cons.diffDiag q.1 q.2 (q.2 - q.1) := by
      by_cases hv : v = q.1 ∨ v = q.2
      · rw [if_pos hv] at hxq'
        simpa using hxq'
      · rw [if_neg hv] at hxq'
        simp at hxq'
    rcases hp with rfl | rfl <;> rcases hq with hq | hq
    · injection hq with h1 h2
      exact hpq (Prod.ext h1 h2)
    · exact Cons.noConfusion hq
    · exact Cons.noConfusion hq
    · injection hq with h1 h2
      exact hpq (Prod.ext h1 h2)

/- ### Size characterization used by is_complete -/

theorem length_eq_iff_all_bound {N : Nat} {a : Assignment}
    (hnd : (keysOf a).Nodup) (hsub : ∀ k ∈ keysOf a, k < N) :
    a.length = N ↔ ∀ v < N, ∃ x, lookupA a v = some x := by
  have hlen : (keysOf a).length = a.length := by simp [keysOf]
  constructor
  · intro hN v hv
    have hcard : (keysOf a).toFinset.card = N := by
      rw [List.toFinset_card_of_nodup hnd, hlen, hN]
    have hsub' : (keysOf a).toFinset ⊆ Finset.range N := by
      intro k hk
      rw [List.mem_toFinset] at hk
      rw [Finset.mem_range]
      exact hsub k hk
    have heq : (keysOf a).toFinset = Finset.range N :=
      Finset.eq_of_subset_of_card_le hsub' (by rw [hcard, Finset.card_range])
    have hv' : v ∈ keysOf a := by
      rw [← List.mem_toFinset, heq, Finset.mem_range]
      exact hv
    exact exists_lookupA_of_mem_keysOf hv'
  · intro hall
    have hsub2 : Finset.range N ⊆ (keysOf a).toFinset := by
      intro v hv
      rw [Finset.mem_range] at hv
      obtain ⟨x, hx⟩ := hall v hv
      rw [List.mem_toFinset]
      exact mem_keysOf_of_lookupA hx
    have hsub' : (keysOf a).toFinset ⊆ Finset.range N := by
      intro k hk
      rw [List.mem_toFinset] at hk
      rw [Finset.mem_range]
      exact hsub k hk
    have heq := Finset.Subset.antisymm hsub' hsub2
    have hc := congrArg Finset.card heq
    rw [List.toFinset_card_of_nodup hnd, hlen, Finset.card_range] at hc
    exact hc

/- ## Claim theorems -/

/-- C1: for every N ≥ 1, if backtracking_search on NQueensCSP(N) returns an
assignment (not None), the assignment binds every one of the N variables
exactly once (its key list is exactly 0..N-1), every bound value lies in
[0, N), and for every pair of distinct variables i and j,
assignment[i] ≠ assignment[j] and |assignment[i] − assignment[j]| ≠ |i − j|. -/
theorem nqueens_solution_valid (N fuel : Nat) (r fin : Assignment) (hN : 1 ≤ N)
    (h : backtracking_search (NQueensCSP N) fuel = .ok (some r, fin)) :
    keysOf r = List.range N ∧ (∀ p ∈ r, 0 ≤ p.2 ∧ p.2 < (N : Int)) ∧
    ∀ i j vi vj, i ≠ j → lookupA r i = some vi → lookupA r j = some vj →
      vi ≠ vj ∧ (vi - vj).natAbs ≠ ((i : Int) - (j : Int)).natAbs := by
  obtain ⟨hInv, hlen⟩ := backtrack_sound N fuel [] r fin (InvA_nil N) h
  exact InvA_complete hInv hlen

/-- Witness for C1: at N = 4 with fuel 5 the search returns
[(0,1),(1,3),(2,0),(3,2)]; instantiating the pair property at columns 0 and
1 gives concrete row and diagonal separation. -/
theorem nqueens_solution_valid_witness :
    backtracking_search (NQueensCSP 4) 5 =
      .ok (some [(0, 1), (1, 3), (2, 0), (3, 2)], [(0, 1), (1, 3), (2, 0), (3, 2)]) ∧
    ((1 : Int) ≠ 3 ∧ ((1 : Int) - 3).natAbs ≠ ((0 : Int) - (1 : Int)).natAbs) :=
  ⟨by rfl,
   (nqueens_solution_valid 4 5 [(0, 1), (1, 3), (2, 0), (3, 2)]
      [(0, 1), (1, 3), (2, 0), (3, 2)] (by decide) (by rfl)).2.2
     0 1 1 3 (by decide) (by rfl) (by rfl)⟩

/-- C2: is_consistent(var, value, assignment) is true iff no constraint
referencing var evaluates to false after substituting value for var and the
existing bindings for the other variables; moreover any constraint of the
index whose other referenced variable is unbound passes, so is_consistent
never returns false solely because of unbound variables. -/
theorem is_consistent_spec (N var : Nat) (value : Int) (a : Assignment) :
    (NQ_is_consistent N var value a = true ↔
      ∀ c ∈ NQ_index N var, ¬ c.violated (subsBnd var value a)) ∧
    (∀ c ∈ NQ_index N var, (∃ w, c.refs w ∧ w ≠ var ∧ lookupA a w = none) →
      consHolds c (subsBnd var value a) = true) := by
  constructor
  · unfold NQ_is_consistent
    rw [List.all_eq_true]
    constructor
    · intro h c hc
      exact consHolds_eq_true_iff.mp (h c hc)
    · intro h c hc
      exact consHolds_eq_true_iff.mpr (h c hc)
  · rintro c _ ⟨w, hw, hwv, hwn⟩
    have hbnd : subsBnd var value a w = none := by
      simp [subsBnd, hwv, hwn]
    cases c with
    | diffRow i j =>
      rcases hw with rfl | rfl
      · cases hbj : subsBnd value.natAbs value a j <;>
          simp [consHolds, hbnd]
      · cases hbi : subsBnd var value a i <;>
          simp [consHolds, hbnd, hbi]
    | diffDiag i j d =>
      rcases hw with rfl | rfl
      · cases hbj : subsBnd var value a j <;>
          simp [consHolds, hbnd]
      · cases hbi : subsBnd var value a i <;>
          simp [consHolds, hbnd, hbi]

/-- Witness for C2 at N = 2, var = 0, value = 0 and the empty assignment:
the iff holds, and the row constraint of the pair (0, 1), whose other
variable 1 is unbound, passes. -/
theorem is_consistent_spec_witness :
    (NQ_is_consistent 2 0 0 [] = true ↔
      ∀ c ∈ NQ_index 2 0, ¬ c.violated (subsBnd 0 0 [])) ∧
    consHolds (Cons.diffRow 0 1) (subsBnd 0 0 []) = true :=
  ⟨(is_consistent_spec 2 0 0 []).1,
   (is_consistent_spec 2 0 0 []).2 (Cons.diffRow 0 1) (by decide)
     ⟨1, Or.inr rfl, by decide, rfl⟩⟩

/-- C3: when a call backtrack(assignment, csp) on the N-queens model returns
None, the dict holds exactly the bindings it held on entry; and
backtracking_search yields either None or a complete assignment that keeps
every constraint of the model satisfied — never an inconsistent partial
assignment. -/
theorem backtrack_failure_restores :
    (∀ (N fuel : Nat) (a fin : Assignment),
      backtrack (NQueensCSP N) fuel a = .ok (none, fin) → fin = a) ∧
    (∀ (N fuel : Nat) (s fin : Assignment),
      backtracking_search (NQueensCSP N) fuel = .ok (some s, fin) →
      s.length = N ∧ keysOf s = List.range N ∧
        ∀ v c, c ∈ NQ_index N v → consHolds c (lookupA s) = true) := by
  constructor
  · intro N fuel a fin h
    exact (backtrack_restore N fuel a none fin h).1 rfl
  · intro N fuel s fin h
    obtain ⟨hInv, hlen⟩ := backtrack_sound N fuel [] s fin (InvA_nil N) h
    obtain ⟨hk, _, _, hcs⟩ := hInv
    exact ⟨hlen, by rw [hk, hlen], hcs⟩

/-- Witness for C3: on the 2-queens model, backtrack called on the dict
{0 → 0} fails and returns with the dict restored to {0 → 0}. -/
theorem backtrack_failure_restores_witness :
    backtrack (NQueensCSP 2) 2 [(0, 0)] = .ok (none, [(0, 0)]) ∧
    ([(0, 0)] : Assignment) = [(0, 0)] :=
  ⟨by rfl, backtrack_failure_restores.1 2 2 [(0, 0)] [(0, 0)] (by rfl)⟩

/-- C4 counterexample: NQueensCSP(0) does not fail fast — the constructor
performs no validation, the model is simply empty, and the search runs and
succeeds, so no construction error occurs before search. -/
theorem construction_no_guard_at_zero :
    (NQueensCSP 0).vars = [] ∧ NQ_domains 0 = [] ∧ NQ_pairs 0 = [] ∧
    backtracking_search (NQueensCSP 0) 1 = .ok (some [], []) :=
  ⟨rfl, rfl, rfl, rfl⟩

/-- C4 amended: for every N ≤ 0 (in the natural-number size model, N = 0),
NQueensCSP(N) constructs successfully with empty variables, domains and
constraint index — there is no construction-time validation — and
backtracking_search returns the empty assignment as a success. -/
theorem construction_at_nonpositive (N : Nat) (hN : N ≤ 0) :
    (NQueensCSP N).vars = [] ∧ NQ_domains N = [] ∧ (∀ v, NQ_index N v = []) ∧
    backtracking_search (NQueensCSP N) (N + 1) = .ok (some [], []) := by
  obtain rfl : N = 0 := by omega
  exact ⟨rfl, rfl, fun _ => rfl, rfl⟩

/-- Witness for the amended C4 at N = 0. -/
theorem construction_at_nonpositive_witness :
    (NQueensCSP 0).vars = [] ∧ NQ_domains 0 = [] ∧ (∀ v, NQ_index 0 v = []) ∧
    backtracking_search (NQueensCSP 0) 1 = .ok (some [], []) :=
  construction_at_nonpositive 0 (by decide)

/-- C5 (code bug): on a CSP whose inference hook returns the failure value
None for a consistent candidate, backtrack does skip the recursive call and
undo the tentative binding, but then crashes with AttributeError because the
cleanup loop calls inferences.keys() on None — it does not continue to the
next candidate value. -/
theorem inference_none_raises :
    backtrack noneInferenceCSP 2 [] = .error .attributeError := by rfl

/-- C6 counterexample: is_complete only compares the dict size with N, so
the assignment {5 → 0} passes the completeness check of NQueensCSP(1) even
though it binds none of the model's variables (variable 0 is unbound). -/
theorem is_complete_not_iff :
    (NQueensCSP 1).is_complete [(5, 0)] = true ∧
    0 ∈ (NQueensCSP 1).vars ∧ lookupA [(5, 0)] 0 = none :=
  ⟨rfl, by decide, rfl⟩

/-- C6 amended: for an assignment that is a genuine dict over the model's
variables (no duplicate keys, every key a variable), is_complete returns
true iff every variable of the model is bound (exactly once, keys being
distinct). -/
theorem is_complete_char (N : Nat) (a : Assignment)
    (hnd : (keysOf a).Nodup) (hsub : ∀ k ∈ keysOf a, k < N) :
    (NQueensCSP N).is_complete a = true ↔
      ∀ v ∈ (NQueensCSP N).vars, ∃ x, lookupA a v = some x := by
  constructor
  · intro h v hv
    have hlen : a.length = N := by simpa [NQueensCSP] using h
    have hvN : v < N := by simpa [NQueensCSP, List.mem_range] using hv
    exact (length_eq_iff_all_bound hnd hsub).mp hlen v hvN
  · intro h
    have hlen : a.length = N := (length_eq_iff_all_bound hnd hsub).mpr
      (fun v hv => h v (by simpa [NQueensCSP, List.mem_range] using hv))
    simp [NQueensCSP, hlen]

/-- Witness for the amended C6 at N = 2 with the dict {0 → 0, 1 → 1}. -/
theorem is_complete_char_witness :
    (NQueensCSP 2).is_complete [(0, 0), (1, 1)] = true ↔
      ∀ v ∈ (NQueensCSP 2).vars, ∃ x, lookupA [(0, 0), (1, 1)] v = some x :=
  is_complete_char 2 [(0, 0), (1, 1)] (by decide) (by decide)

/-- C7: for every unordered pair of variables i < j < N, the constraint
index holds exactly one different-row constraint and exactly one
different-diagonal constraint with column distance j − i, both present in
the entries of i and of j; and every constraint in the entry of a variable
v references v. -/
theorem constraint_index_spec (N : Nat) :
    (∀ i j, i < j → j < N →
      (NQ_index N i).count (Cons.diffRow i j) = 1 ∧
      (NQ_index N i).count (Cons.diffDiag i j (j - i)) = 1 ∧
      (NQ_index N j).count (Cons.diffRow i j) = 1 ∧
      (NQ_index N j).count (Cons.diffDiag i j (j - i)) = 1) ∧
    (∀ v c, c ∈ NQ_index N v → c.refs v) := by
  constructor
  · intro i j hij hjN
    refine ⟨?_, ?_, ?_, ?_⟩
    · exact List.count_eq_one_of_mem (NQ_index_nodup N i)
        (mem_NQ_index.mpr ⟨i, j, hij, hjN, Or.inl rfl, Or.inl rfl⟩)
    · exact List.count_eq_one_of_mem (NQ_index_nodup N i)
        (mem_NQ_index.mpr ⟨i, j, hij, hjN, Or.inl rfl, Or.inr rfl⟩)
    · exact List.count_eq_one_of_mem (NQ_index_nodup N j)
        (mem_NQ_index.mpr ⟨i, j, hij, hjN, Or.inr rfl, Or.inl rfl⟩)
    · exact List.count_eq_one_of_mem (NQ_index_nodup N j)
        (mem_NQ_index.mpr ⟨i, j, hij, hjN, Or.inr rfl, Or.inr rfl⟩)
  · intro v c hc
    obtain ⟨i, j, _, _, hv, hce⟩ := mem_NQ_index.mp hc
    rcases hce with rfl | rfl <;> exact hv

/-- Witness for C7 at N = 3 with the pair (0, 2). -/
theorem constraint_index_spec_witness :
    (NQ_index 3 0).count (Cons.diffRow 0 2) = 1 ∧
    Cons.refs (Cons.diffRow 0 1) 0 :=
  ⟨((constraint_index_spec 3).1 0 2 (by decide) (by decide)).1,
   (constraint_index_spec 3).2 0 (Cons.diffRow 0 1) (by decide)⟩

/-- C8: with fuel at least N + 1 (enough for the full recursion), the
solver returns the assignment {0 → 0} for N = 1, and the explicit failure
value None (with the dict left empty) for N = 2 and N = 3. -/
theorem small_board_results :
    (∀ fuel, 2 ≤ fuel →
      backtracking_search (NQueensCSP 1) fuel = .ok (some [(0, 0)], [(0, 0)])) ∧
    (∀ fuel, 3 ≤ fuel → backtracking_search (NQueensCSP 2) fuel = .ok (none, [])) ∧
    (∀ fuel, 4 ≤ fuel → backtracking_search (NQueensCSP 3) fuel = .ok (none, [])) := by
  refine ⟨fun fuel hf => ?_, fun fuel hf => ?_, fun fuel hf => ?_⟩
  · exact backtrack_mono 2 fuel hf [] _ (by rfl)
  · exact backtrack_mono 3 fuel hf [] _ (by rfl)
  · exact backtrack_mono 4 fuel hf [] _ (by rfl)

/-- Witness for C8 at fuel 5. -/
theorem small_board_results_witness :
    backtracking_search (NQueensCSP 1) 5 = .ok (some [(0, 0)], [(0, 0)]) ∧
    backtracking_search (NQueensCSP 2) 5 = .ok (none, []) ∧
    backtracking_search (NQueensCSP 3) 5 = .ok (none, []) :=
  ⟨small_board_results.1 5 (by decide), small_board_results.2.1 5 (by decide),
   small_board_results.2.2 5 (by decide)⟩

/-- C9: for every N ≥ 1 the search terminates: fuel N + 1 — one recursion
frame per variable plus the root call — suffices for a normal return, and
any larger fuel budget yields the same result, so the recursion depth is
bounded by the number of variables. -/
theorem search_terminates (N : Nat) (_hN : 1 ≤ N) :
    (∃ x, backtracking_search (NQueensCSP N) (N + 1) = .ok x) ∧
    ∀ fuel, N + 1 ≤ fuel →
      backtracking_search (NQueensCSP N) fuel = backtracking_search (NQueensCSP N) (N + 1) := by
  have hprog := backtrack_progress N (N + 1) [] (by simp [keysOf]) (Nat.zero_le N) (by omega)
  refine ⟨hprog, ?_⟩
  obtain ⟨x, hx⟩ := hprog
  intro fuel hf
  have h1 : backtrack (NQueensCSP N) fuel [] = .ok x := backtrack_mono (N + 1) fuel hf [] x hx
  show backtrack (NQueensCSP N) fuel [] = backtrack (NQueensCSP N) (N + 1) []
  rw [h1, hx]

/-- Witness for C9 at N = 4. -/
theorem search_terminates_witness :
    (∃ x, backtracking_search (NQueensCSP 4) 5 = .ok x) ∧
    ∀ fuel, 5 ≤ fuel →
      backtracking_search (NQueensCSP 4) fuel = backtracking_search (NQueensCSP 4) 5 :=
  search_terminates 4 (by decide)

/-- C10: NQueensCSP(0) constructs successfully — empty variable list, empty
domain dict, no constraint pairs, empty index entry — the empty assignment
is immediately complete, and backtracking_search returns it as a success. -/
theorem zero_board_success :
    (NQueensCSP 0).vars = [] ∧ NQ_domains 0 = [] ∧ NQ_pairs 0 = [] ∧
    NQ_index 0 0 = [] ∧ (NQueensCSP 0).is_complete [] = true ∧
    backtracking_search (NQueensCSP 0) 1 = .ok (some [], []) :=
  ⟨rfl, rfl, rfl, rfl, rfl, rfl⟩

end NQ
